import Mathlib

/-! Secret Santa: pairing generator, name loader and lookup.

A shallow embedding of `main.go` and the properties of its three routines:

* `readNamesFromFile` (lines 21-40): the scanner over the file and the loop over its lines;
* `makePairings` (lines 43-64): size check, shuffle, positional pairing and the
  retry on a fixed point;
* `queryHandler` (lines 67-85): the dictionary lookup behind `/query`.

Go values are embedded as follows.

* `string` is `String`; `[]string` is `List String`.
* `map[string]string` is `StrMap`, an association list with one entry per key,
  read by `mapGet` and written by `mapSet` (which overwrites the entry of a key that
  is already present, as a Go map assignment does).
* The process-wide random source is a parameter.  One activation of `makePairings`
  consumes one *shuffle outcome*: the contents of `shuffled` after `rand.Shuffle`
  has returned.  A run is driven by the list of the outcomes of its successive
  activations; `none` means that all the outcomes supplied were rejected, that is,
  the call has not returned yet.
* The retry of line 58 is a recursive call, and Go keeps the frame of the caller: the
  number of nested activations the goroutine stack can still hold is a parameter of
  `makePairings`, and a retry beyond it ends the run in a stack overflow.
* A file is its content and the error, if any, that reading it ends with.  The
  `bufio.Scanner` of line 29 delivers its lines one by one and stops with the error
  "token too long" at a line of `MaxScanTokenSize` bytes or more.
-/

namespace Santa

/-! ## Data model -/

/-- Go's `map[string]string`, as an association list with one entry per key. -/
abbrev StrMap := List (String × String)

/-- The read `m[k]` in its two-valued form `v, ok := m[k]`: `some v` when `k` is a key. -/
def mapGet : StrMap → String → Option String
  | [], _ => none
  | (k', v') :: m, k => if k' = k then some v' else mapGet m k

/-- The assignment `m[k] = v`: overwrites the entry of `k`, or adds one. -/
def mapSet : StrMap → String → String → StrMap
  | [], k, v => [(k, v)]
  | (k', v') :: m, k, v => if k' = k then (k, v) :: m else (k', v') :: mapSet m k v

/-- The keys of a map, in the order of the association list. -/
def mapKeys (m : StrMap) : List String := m.map Prod.fst

/-- The values of a map, in the order of the association list. -/
def mapValues (m : StrMap) : List String := m.map Prod.snd

/-! ## Pairing generator (`makePairings`, lines 43-64) -/

/-- How the `for i, giver := range names` loop of lines 55-61 ends. -/
inductive LoopResult where
  /-- Some position has `giver == recipient`: line 58, the call starts over. -/
  | retry
  /-- The loop ran through `names`: `pairings` is returned at line 63. -/
  | done (pairings : StrMap)
  /-- The read `shuffled[i]` was out of range (a run-time panic). -/
  | indexPanic
  deriving DecidableEq, Repr

/-- The loop of lines 55-61, from position `i` on: the first argument is `names[i:]`,
the second `shuffled[i:]`, the third the `pairings` written so far. -/
def pairLoop : List String → List String → StrMap → LoopResult
  | [], _, pairings => .done pairings
  | _ :: _, [], _ => .indexPanic
  | giver :: names, recipient :: shuffled, pairings =>
    if giver = recipient then .retry
    else pairLoop names shuffled (mapSet pairings giver recipient)

/-- What a call of `makePairings` yields. -/
inductive Result where
  /-- The statement `return pairings, nil`. -/
  | ok (pairings : StrMap)
  /-- The statement `return nil, errors.New(msg)`: no mapping, an error. -/
  | error (msg : String)
  /-- A run-time panic (index out of range). -/
  | panic
  /-- The recursive call of line 58 finds the goroutine stack exhausted: a fatal error, the
  process ends and nothing is returned. -/
  | stackOverflow
  deriving DecidableEq, Repr

/-- The message of the error of line 45. -/
def notEnough : String := "not enough participants for Secret Santa"

/-- The function `makePairings`.  The argument `stack` is the number of further nested
activations that the goroutine stack can hold (Go bounds a goroutine stack, by 1 GB on
64-bit systems, and each retry adds a frame); the last argument lists the shuffle outcomes
of the successive activations, and each recursive call of line 58 consumes the next one.
`none`: every outcome supplied was rejected, the call has not returned. -/
def makePairings (names : List String) (stack : Nat) (outcomes : List (List String)) :
    Option Result :=
  match outcomes with
  | [] => if names.length < 2 then some (.error notEnough) else none
  | shuffled :: rest =>
    if names.length < 2 then some (.error notEnough)
    else
      match pairLoop names shuffled [] with
      | .retry =>
        match stack with
        | 0 => some .stackOverflow
        | stack + 1 => makePairings names stack rest
      | .done pairings => some (.ok pairings)
      | .indexPanic => some .panic
termination_by structural outcomes

/-! ### The shuffle of lines 49-52

`rand.Shuffle(n, swap)` is library code: it calls `swap(i, j)` with `0 ≤ j ≤ i < n`
for `i = n-1` down to `1`.  The closure it is given and the copy it works on are
part of `main.go`. -/

/-- The closure of lines 50-52: `shuffled[i], shuffled[j] = shuffled[j], shuffled[i]`. -/
def swap (shuffled : List String) (i j : Nat) : List String :=
  match shuffled[i]?, shuffled[j]? with
  | some x, some y => (shuffled.set i y).set j x
  | _, _ => shuffled

/-- The effect of `rand.Shuffle(len(shuffled), swap)` on the copy of `names` made at
line 49, when the library makes the calls `swap(i, j)` for the listed `(i, j)`. -/
def shuffleWith (names : List String) (calls : List (Nat × Nat)) : List String :=
  calls.foldl (fun shuffled c => swap shuffled c.1 c.2) names

/-! ### Specification-side notions -/

/-- Some position `i` of `names` has `names[i] == shuffled[i]`. -/
def hasFixedPoint (names shuffled : List String) : Bool :=
  (List.range names.length).any fun i => decide (names[i]? = shuffled[i]?)

/-- The mapping that pairs position `i` of `names` with position `i` of `shuffled`,
written on top of `pairings`. -/
def pairUp (names shuffled : List String) (pairings : StrMap) : StrMap :=
  (names.zip shuffled).foldl (fun m p => mapSet m p.1 p.2) pairings

/-- A shuffle outcome is valid for `names` when it is a rearrangement of `names`. -/
def ValidOutcomes (names : List String) (outcomes : List (List String)) : Prop :=
  ∀ s ∈ outcomes, s.Perm names

instance (names : List String) (outcomes : List (List String)) :
    Decidable (ValidOutcomes names outcomes) := by
  unfold ValidOutcomes; infer_instance

/-- A mapping is a fixed-point-free bijection of the name set of `names`: its keys are
the names, every value is a name other than its key, and no two keys share a value. -/
def IsDerangementOf (names : List String) (f : StrMap) : Prop :=
  (∀ g, (mapGet f g).isSome ↔ g ∈ names) ∧
  (∀ g v, mapGet f g = some v → v ∈ names ∧ v ≠ g) ∧
  (∀ g g' v, mapGet f g = some v → mapGet f g' = some v → g = g')

/-! ## Name loader (`readNamesFromFile`, lines 21-40) -/

/-- Go's `unicode.IsSpace`: the characters `strings.TrimSpace` removes. -/
def isSpace (c : Char) : Bool :=
  c.toNat = 0x09 || c.toNat = 0x0A || c.toNat = 0x0B || c.toNat = 0x0C || c.toNat = 0x0D ||
  c.toNat = 0x20 || c.toNat = 0x85 || c.toNat = 0xA0 || c.toNat = 0x1680 ||
  (0x2000 ≤ c.toNat && c.toNat ≤ 0x200A) || c.toNat = 0x2028 || c.toNat = 0x2029 ||
  c.toNat = 0x202F || c.toNat = 0x205F || c.toNat = 0x3000

/-- Go's `strings.TrimSpace`: the string without its leading and trailing white space. -/
def TrimSpace (s : String) : String :=
  ⟨((s.data.dropWhile isSpace).reverse.dropWhile isSpace).reverse⟩

/-- What the scanner of line 29 delivers: the text of each successful `scanner.Scan()`
in order, and the value of `scanner.Err()` once `Scan` has returned false. -/
structure Scanned where
  /-- The successive values of `scanner.Text()`. -/
  lines : List String
  /-- The value of `scanner.Err()`; `none` is Go's `nil`. -/
  err : Option String
  deriving DecidableEq, Repr

/-- An opened file: its content, and the error that `Read` ends with after the content
(`none` when the content ends with a plain end of file). -/
structure File where
  /-- The bytes that can be read, as text. -/
  content : String
  /-- The error other than end of file that reading ends with, if any. -/
  readErr : Option String
  deriving DecidableEq, Repr

/-- The constant `bufio.MaxScanTokenSize`: the size of the largest buffer of a scanner. -/
def MaxScanTokenSize : Nat := 64 * 1024

/-- The message of `bufio.ErrTooLong`. -/
def ErrTooLong : String := "bufio.Scanner: token too long"

/-- The number of bytes of a piece of text (Go strings are UTF-8 byte sequences). -/
def byteLen (line : List Char) : Nat := (line.map Char.utf8Size).sum

/-- The raw lines of a text from some point on, `line` being the reversed beginning of the
current line: the pieces between line feeds, and a last piece without line feed when it is
not empty. -/
def rawLinesFrom : List Char → List Char → List (List Char)
  | [], line => if line = [] then [] else [line.reverse]
  | c :: cs, line =>
    if c = '\n' then line.reverse :: rawLinesFrom cs [] else rawLinesFrom cs (c :: line)

/-- The raw lines of a text: what stands before each line feed, and after the last. -/
def rawLines (text : String) : List (List Char) := rawLinesFrom text.data []

/-- Drops one trailing carriage return, as `bufio.ScanLines` does with each line. -/
def dropCR (line : List Char) : List Char :=
  if line.getLast? = some '\r' then line.dropLast else line

/-- The run of a `bufio.Scanner` with its default split function `ScanLines` over the raw
lines still to come.  A line and its line feed have to fit into the buffer, which grows up
to `MaxScanTokenSize` bytes: at a raw line of that many bytes or more `Scan` returns false
and `Err` is `ErrTooLong`.  Otherwise the line is delivered without its carriage return.
After the last line `Err` is the error the reading ended with. -/
def scanTokens : List (List Char) → Option String → Scanned
  | [], readErr => ⟨[], readErr⟩
  | line :: rest, readErr =>
    if MaxScanTokenSize ≤ byteLen line then ⟨[], some ErrTooLong⟩
    else ⟨⟨dropCR line⟩ :: (scanTokens rest readErr).lines, (scanTokens rest readErr).err⟩

/-- The scanner `bufio.NewScanner(file)` of line 29, run to its end. -/
def NewScanner (file : File) : Scanned := scanTokens (rawLines file.content) file.readErr

/-- The loop of lines 30-35 over the lines still to come, `names` being the slice
built so far. -/
def readLoop : List String → List String → List String
  | [], names => names
  | text :: rest, names =>
    let name := TrimSpace text
    if name ≠ "" then readLoop rest (names ++ [name]) else readLoop rest names

/-- The function `readNamesFromFile`.  The argument is the result of `os.Open`: `.error err`
when the file cannot be opened. -/
def readNamesFromFile (opened : Except String File) : Except String (List String) :=
  match opened with
  | .error err => .error err
  | .ok file =>
    let scanner := NewScanner file
    let names := readLoop scanner.lines []
    match scanner.err with
    | some err => .error err
    | none => .ok names

/-- The lines of a source as the specification views them: the raw lines without their
line terminators. -/
def sourceLines (text : String) : List String :=
  (rawLines text).map fun line => ⟨dropCR line⟩

/-- Whether a line is blank: nothing but white space. -/
def isBlank (line : String) : Bool := line.data.all isSpace

/-- The names of a source as the specification words them: every line trimmed, the lines
that are empty after trimming dropped, the order kept. -/
def trimmedNames (lines : List String) : List String :=
  (lines.map TrimSpace).filter fun name => decide (name ≠ "")

/-- A readable source with one line of 65536 bytes between two short ones. -/
def longLineSource : String :=
  ⟨"Alice".data ++ '\n' :: (List.replicate 65536 'x' ++ '\n' :: "Bob\n".data)⟩

/-! ## Lookup (`queryHandler`, lines 67-85) -/

/-- The struct `SecretSanta`. -/
structure SecretSanta where
  /-- The givers and their giftees. -/
  Pairings : StrMap
  deriving DecidableEq, Repr

/-- What the handler writes to the `http.ResponseWriter`. -/
inductive Response where
  /-- The call `http.Error(w, msg, code)`. -/
  | httpError (msg : String) (code : Nat)
  /-- The JSON encoding of `response`, with content type `application/json`. -/
  | json (response : StrMap)
  deriving DecidableEq, Repr

/-- The handler returned by `queryHandler(santa)`, run on a request whose query parameter
`name` has the given value (empty when the parameter is missing).  It yields the response
and the `SecretSanta` value afterwards. -/
def queryHandler (santa : SecretSanta) (name : String) : Response × SecretSanta :=
  if name = "" then (.httpError "Name parameter is required" 400, santa)
  else
    match mapGet santa.Pairings name with
    | none => (.httpError "Name not found in Secret Santa list" 404, santa)
    | some giftee => (.json (mapSet (mapSet [] "giver" name) "giftee" giftee), santa)

/-! ## Maps: reads, writes, keys -/

theorem mapGet_mapSet (m : StrMap) (k v k' : String) :
    mapGet (mapSet m k v) k' = if k = k' then some v else mapGet m k' := by
  induction m with
  | nil => simp [mapSet, mapGet]
  | cons e m ih =>
    obtain ⟨a, b⟩ := e
    by_cases h : a = k
    · subst h
      by_cases h2 : a = k' <;> simp [mapSet, mapGet, h2]
    · by_cases h2 : a = k'
      · subst h2
        have h3 : ¬ k = a := fun e => h e.symm
        simp [mapSet, mapGet, h, h3]
      · simp [mapSet, mapGet, h, h2, ih]

theorem mapSet_of_not_mem (m : StrMap) (k v : String) (h : k ∉ mapKeys m) :
    mapSet m k v = m ++ [(k, v)] := by
  induction m with
  | nil => simp [mapSet]
  | cons e m ih =>
    obtain ⟨a, b⟩ := e
    simp only [mapKeys, List.map_cons, List.mem_cons, not_or] at h
    have h1 : ¬ a = k := fun e => h.1 e.symm
    have h2 : k ∉ mapKeys m := h.2
    simp [mapSet, h1, ih h2]

theorem mapGet_eq_none_of_not_mem (m : StrMap) (k : String) (h : k ∉ mapKeys m) :
    mapGet m k = none := by
  induction m with
  | nil => simp [mapGet]
  | cons e m ih =>
    obtain ⟨a, b⟩ := e
    simp only [mapKeys, List.map_cons, List.mem_cons, not_or] at h
    have h1 : ¬ a = k := fun e => h.1 e.symm
    have h2 : k ∉ mapKeys m := h.2
    simp [mapGet, h1, ih h2]

theorem mapGet_isSome_iff (m : StrMap) (k : String) :
    (mapGet m k).isSome ↔ k ∈ mapKeys m := by
  induction m with
  | nil => simp [mapGet, mapKeys]
  | cons e m ih =>
    obtain ⟨a, b⟩ := e
    by_cases h : a = k
    · simp [mapGet, mapKeys, h]
    · have h1 : ¬ k = a := fun e => h e.symm
      have ih2 : (mapGet m k).isSome ↔ k ∈ List.map Prod.fst m := ih
      simp [mapGet, mapKeys, h, h1, ih2]

theorem mapGet_eq_some_iff (m : StrMap) (hk : (mapKeys m).Nodup) (k v : String) :
    mapGet m k = some v ↔ (k, v) ∈ m := by
  induction m with
  | nil => simp [mapGet]
  | cons e m ih =>
    obtain ⟨a, b⟩ := e
    simp only [mapKeys, List.map_cons, List.nodup_cons] at hk
    by_cases h : a = k
    · subst h
      constructor
      · intro hg
        simp only [mapGet, if_true, Option.some.injEq] at hg
        simp [hg]
      · intro hm
        rcases List.mem_cons.1 hm with hm | hm
        · simp only [Prod.mk.injEq] at hm
          simp [mapGet, hm.2]
        · exact absurd (List.mem_map_of_mem Prod.fst hm) hk.1
    · have h1 : ¬ k = a := fun e => h e.symm
      have ih2 := ih hk.2
      simp [mapGet, h, h1, ih2]

/-! ## The pairing loop -/

theorem hasFixedPoint_nil (shuffled : List String) : hasFixedPoint [] shuffled = false := by
  simp [hasFixedPoint]

theorem hasFixedPoint_cons_nil (g : String) (names : List String) :
    hasFixedPoint (g :: names) [] = false := by
  simp only [hasFixedPoint, List.any_eq_false, List.mem_range, List.getElem?_nil]
  intro i hi
  have h : (g :: names)[i]? = some ((g :: names)[i]) := List.getElem?_eq_getElem hi
  simp [h]

theorem hasFixedPoint_cons (g r : String) (names shuffled : List String) :
    hasFixedPoint (g :: names) (r :: shuffled)
      = (decide (g = r) || hasFixedPoint names shuffled) := by
  simp [hasFixedPoint, List.range_succ_eq_map, List.any_map, Function.comp_def]

theorem hasFixedPoint_iff (names shuffled : List String) :
    hasFixedPoint names shuffled = true
      ↔ ∃ i, i < names.length ∧ names[i]? = shuffled[i]? := by
  simp [hasFixedPoint]

theorem pairLoop_eq (names shuffled : List String) (pairings : StrMap)
    (hlen : names.length ≤ shuffled.length) :
    pairLoop names shuffled pairings
      = if hasFixedPoint names shuffled then .retry
        else .done (pairUp names shuffled pairings) := by
  induction names generalizing shuffled pairings with
  | nil => simp [pairLoop, hasFixedPoint_nil, pairUp]
  | cons g names ih =>
    cases shuffled with
    | nil => simp at hlen
    | cons r shuffled =>
      have hlen2 : names.length ≤ shuffled.length := by
        simpa using hlen
      by_cases h : g = r
      · simp [pairLoop, hasFixedPoint_cons, h]
      · simp [pairLoop, hasFixedPoint_cons, h, ih shuffled _ hlen2, pairUp]

theorem pairUp_cons (g r : String) (names shuffled : List String) (pairings : StrMap) :
    pairUp (g :: names) (r :: shuffled) pairings
      = pairUp names shuffled (mapSet pairings g r) := by
  simp [pairUp]

theorem pairUp_nodup (names shuffled : List String) (pairings : StrMap)
    (hnd : names.Nodup) (hdis : ∀ k ∈ names, k ∉ mapKeys pairings) :
    pairUp names shuffled pairings = pairings ++ names.zip shuffled := by
  induction names generalizing shuffled pairings with
  | nil => simp [pairUp]
  | cons g names ih =>
    cases shuffled with
    | nil => simp [pairUp]
    | cons r shuffled =>
      rw [pairUp_cons, mapSet_of_not_mem _ _ _ (hdis g (List.mem_cons_self _ _))]
      rw [List.nodup_cons] at hnd
      rw [ih shuffled _ hnd.2]
      · simp
      · intro k hk hmem
        simp only [mapKeys, List.map_append, List.map_cons, List.map_nil, List.mem_append,
          List.mem_singleton] at hmem
        rcases hmem with hmem | hmem
        · exact hdis k (List.mem_cons_of_mem _ hk) hmem
        · exact hnd.1 (hmem ▸ hk)

theorem pairUp_nodup_nil (names shuffled : List String) (hnd : names.Nodup) :
    pairUp names shuffled [] = names.zip shuffled := by
  rw [pairUp_nodup names shuffled [] hnd (by simp [mapKeys])]
  simp

/-! ## Runs of `makePairings` -/

theorem makePairings_short (names : List String) (stack : Nat)
    (outcomes : List (List String)) (h : names.length < 2) :
    makePairings names stack outcomes = some (.error notEnough) := by
  cases outcomes <;> simp [makePairings, h]

theorem makePairings_nil (names : List String) (stack : Nat) (h : 2 ≤ names.length) :
    makePairings names stack [] = none := by
  have h2 : ¬ names.length < 2 := by omega
  simp [makePairings, h2]

theorem makePairings_cons_retry (names s : List String) (stack : Nat)
    (rest : List (List String)) (h : 2 ≤ names.length) (hs : pairLoop names s [] = .retry) :
    makePairings names (stack + 1) (s :: rest) = makePairings names stack rest := by
  have h2 : ¬ names.length < 2 := by omega
  simp [makePairings, h2, hs]

theorem makePairings_cons_retry_zero (names s : List String) (rest : List (List String))
    (h : 2 ≤ names.length) (hs : pairLoop names s [] = .retry) :
    makePairings names 0 (s :: rest) = some .stackOverflow := by
  have h2 : ¬ names.length < 2 := by omega
  simp [makePairings, h2, hs]

theorem makePairings_cons_done (names s : List String) (stack : Nat)
    (rest : List (List String)) (m : StrMap) (h : 2 ≤ names.length)
    (hs : pairLoop names s [] = .done m) :
    makePairings names stack (s :: rest) = some (.ok m) := by
  have h2 : ¬ names.length < 2 := by omega
  simp [makePairings, h2, hs]

theorem makePairings_cons_panic (names s : List String) (stack : Nat)
    (rest : List (List String)) (h : 2 ≤ names.length)
    (hs : pairLoop names s [] = .indexPanic) :
    makePairings names stack (s :: rest) = some .panic := by
  have h2 : ¬ names.length < 2 := by omega
  simp [makePairings, h2, hs]

theorem makePairings_append_retry (names : List String) (stack : Nat)
    (pre rest : List (List String)) (h : 2 ≤ names.length)
    (hpre : ∀ p ∈ pre, pairLoop names p [] = .retry) :
    makePairings names (stack + pre.length) (pre ++ rest) = makePairings names stack rest := by
  induction pre with
  | nil => rfl
  | cons p pre ih =>
    rw [List.cons_append, List.length_cons, ← Nat.add_assoc,
      makePairings_cons_retry _ _ _ _ h (hpre p (List.mem_cons_self _ _))]
    exact ih (fun q hq => hpre q (List.mem_cons_of_mem _ hq))

theorem makePairings_overflow (names : List String) (stack : Nat)
    (pre rest : List (List String)) (h : 2 ≤ names.length)
    (hpre : ∀ p ∈ pre, pairLoop names p [] = .retry) (hlt : stack < pre.length) :
    makePairings names stack (pre ++ rest) = some .stackOverflow := by
  induction pre generalizing stack with
  | nil => simp at hlt
  | cons p pre ih =>
    have hp := hpre p (List.mem_cons_self _ _)
    cases stack with
    | zero => exact makePairings_cons_retry_zero names p _ h hp
    | succ stack =>
      rw [List.cons_append, makePairings_cons_retry _ _ _ _ h hp]
      exact ih stack (fun q hq => hpre q (List.mem_cons_of_mem _ hq))
        (by simpa using hlt)

theorem makePairings_all_retry (names : List String) (stack : Nat)
    (outcomes : List (List String)) (h : 2 ≤ names.length)
    (hall : ∀ p ∈ outcomes, pairLoop names p [] = .retry) :
    makePairings names stack outcomes
      = if outcomes.length ≤ stack then none else some .stackOverflow := by
  by_cases hle : outcomes.length ≤ stack
  · obtain ⟨d, rfl⟩ := Nat.exists_eq_add_of_le hle
    have := makePairings_append_retry names d outcomes [] h hall
    rw [List.append_nil, Nat.add_comm] at this
    rw [this, makePairings_nil names d h, if_pos hle]
  · have := makePairings_overflow names stack outcomes [] h hall (by omega)
    rw [List.append_nil] at this
    rw [this, if_neg hle]

theorem makePairings_split (names : List String) (stack : Nat)
    (outcomes : List (List String)) (r : Result) (h : 2 ≤ names.length)
    (hr : makePairings names stack outcomes = some r) :
    r = .stackOverflow ∨
    ∃ pre s post, outcomes = pre ++ s :: post ∧ pre.length ≤ stack ∧
      (∀ p ∈ pre, pairLoop names p [] = .retry) ∧
      ((∃ m, pairLoop names s [] = .done m ∧ r = .ok m) ∨
        (pairLoop names s [] = .indexPanic ∧ r = .panic)) := by
  induction outcomes generalizing stack with
  | nil => rw [makePairings_nil names stack h] at hr; cases hr
  | cons s outcomes ih =>
    cases hs : pairLoop names s [] with
    | retry =>
      cases stack with
      | zero =>
        rw [makePairings_cons_retry_zero names s _ h hs] at hr
        simp only [Option.some.injEq] at hr
        exact Or.inl hr.symm
      | succ stack =>
        rw [makePairings_cons_retry names s stack _ h hs] at hr
        rcases ih stack hr with hso | ⟨pre, t, post, he, hle, hpre, ht⟩
        · exact Or.inl hso
        · refine Or.inr ⟨s :: pre, t, post, by rw [he]; rfl, by simpa using hle, ?_, ht⟩
          intro p hp
          rcases List.mem_cons.1 hp with hp | hp
          · rw [hp]; exact hs
          · exact hpre p hp
    | done m =>
      rw [makePairings_cons_done names s stack _ m h hs] at hr
      simp only [Option.some.injEq] at hr
      exact Or.inr ⟨[], s, outcomes, rfl, by simp, by simp, Or.inl ⟨m, hs, hr.symm⟩⟩
    | indexPanic =>
      rw [makePairings_cons_panic names s stack _ h hs] at hr
      simp only [Option.some.injEq] at hr
      exact Or.inr ⟨[], s, outcomes, rfl, by simp, by simp, Or.inr ⟨hs, hr.symm⟩⟩

theorem pairLoop_noSelf (names shuffled : List String) (m0 m : StrMap)
    (h : pairLoop names shuffled m0 = .done m)
    (h0 : ∀ g v, mapGet m0 g = some v → v ≠ g) :
    ∀ g v, mapGet m g = some v → v ≠ g := by
  induction names generalizing shuffled m0 with
  | nil =>
    simp only [pairLoop, LoopResult.done.injEq] at h
    exact h ▸ h0
  | cons a names ih =>
    cases shuffled with
    | nil => simp [pairLoop] at h
    | cons r shuffled =>
      by_cases har : a = r
      · simp [pairLoop, har] at h
      · simp only [pairLoop, har, if_false] at h
        refine ih shuffled _ h ?_
        intro g v hg
        rw [mapGet_mapSet] at hg
        by_cases hag : a = g
        · simp only [hag, if_true, Option.some.injEq] at hg
          rw [← hg, ← hag]
          exact fun e => har e.symm
        · simp only [hag, if_false] at hg
          exact h0 g v hg

theorem perm_length_le (names s : List String) (h : s.Perm names) :
    names.length ≤ s.length := le_of_eq h.length_eq.symm

theorem zip_snd_inj (l1 l2 : List String) (hnd : l2.Nodup) (a a' b : String)
    (h1 : (a, b) ∈ l1.zip l2) (h2 : (a', b) ∈ l1.zip l2) : a = a' := by
  induction l1 generalizing l2 with
  | nil => simp at h1
  | cons x l1 ih =>
    cases l2 with
    | nil => simp at h1
    | cons y l2 =>
      rw [List.nodup_cons] at hnd
      rw [List.zip_cons_cons, List.mem_cons] at h1 h2
      rcases h1 with h1 | h1 <;> rcases h2 with h2 | h2
      · simp only [Prod.mk.injEq] at h1 h2
        rw [h1.1, h2.1]
      · simp only [Prod.mk.injEq] at h1
        exact absurd (h1.2 ▸ (List.of_mem_zip h2).2) hnd.1
      · simp only [Prod.mk.injEq] at h2
        exact absurd (h2.2 ▸ (List.of_mem_zip h1).2) hnd.1
      · exact ih l2 hnd.2 h1 h2

theorem perm_pair (a b : String) (s : List String) (h : s.Perm [a, b]) :
    s = [a, b] ∨ s = [b, a] := by
  have hl := h.length_eq
  match s, hl with
  | [x, y], _ =>
    have hx : x ∈ [a, b] := h.subset (by simp)
    have hy : y ∈ [a, b] := h.subset (by simp)
    have ha : a ∈ [x, y] := h.symm.subset (by simp)
    have hb : b ∈ [x, y] := h.symm.subset (by simp)
    simp only [List.mem_cons, List.mem_singleton, List.not_mem_nil, or_false] at hx hy ha hb
    rcases hx with rfl | rfl <;> rcases hy with rfl | rfl
    · rcases hb with rfl | rfl <;> simp
    · simp
    · simp
    · rcases ha with rfl | rfl <;> simp

theorem count_add_count_le (l1 l2 : List String) (a : String)
    (hlen : l1.length = l2.length) (hf : hasFixedPoint l1 l2 = false) :
    l1.count a + l2.count a ≤ l1.length := by
  induction l1 generalizing l2 with
  | nil =>
    cases l2 with
    | nil => simp
    | cons r l2 => simp at hlen
  | cons g l1 ih =>
    cases l2 with
    | nil => simp at hlen
    | cons r l2 =>
      rw [hasFixedPoint_cons, Bool.or_eq_false_iff] at hf
      have hgr : g ≠ r := by simpa using hf.1
      have hlen2 : l1.length = l2.length := by simpa using hlen
      have := ih l2 hlen2 hf.2
      rw [List.count_cons, List.count_cons, List.length_cons]
      by_cases hga : g = a
      · have hra : ¬ r = a := fun e => hgr (hga.trans e.symm)
        simp only [hga, beq_self_eq_true, if_true, beq_iff_eq, hra, if_false]
        omega
      · by_cases hra : r = a
        · simp only [beq_iff_eq, hga, if_false, hra, if_true]
          omega
        · simp only [beq_iff_eq, hga, hra, if_false]
          omega

theorem majority_hasFixedPoint (names : List String) (a : String)
    (hmaj : names.length < 2 * names.count a) (s : List String) (hp : s.Perm names) :
    hasFixedPoint names s = true := by
  by_contra hf
  have hf2 : hasFixedPoint names s = false := by simpa using hf
  have := count_add_count_le names s a hp.length_eq.symm hf2
  rw [hp.count_eq a] at this
  omega

theorem shift_no_fixed (l : List String) (x y : String) (hnd : (x :: l).Nodup)
    (hy : y ∉ l) (hxy : l = [] → x ≠ y) : hasFixedPoint (x :: l) (l ++ [y]) = false := by
  induction l generalizing x with
  | nil =>
    have := hxy rfl
    simp [hasFixedPoint_cons, hasFixedPoint_nil, this]
  | cons b l ih =>
    rw [List.nodup_cons] at hnd
    have hxb : x ≠ b := fun e => hnd.1 (e ▸ List.mem_cons_self _ _)
    have hyb : b ≠ y := fun e => hy (e ▸ List.mem_cons_self _ _)
    have hyl : y ∉ l := fun e => hy (List.mem_cons_of_mem _ e)
    rw [List.cons_append, hasFixedPoint_cons, ih b hnd.2 hyl (fun _ => hyb)]
    simp [hxb]

theorem exists_no_fixed (names : List String) (hlen : 2 ≤ names.length) (hnd : names.Nodup) :
    ∃ s, s.Perm names ∧ hasFixedPoint names s = false := by
  match names, hlen, hnd with
  | a :: b :: l, _, hnd =>
    refine ⟨(b :: l) ++ [a], List.perm_append_singleton a (b :: l), ?_⟩
    exact shift_no_fixed (b :: l) a a hnd (List.nodup_cons.1 hnd).1 (fun e => by cases e)

theorem mapGet_zip_map (names : List String) (F : String → String) (g : String) :
    mapGet (names.zip (names.map F)) g = if g ∈ names then some (F g) else none := by
  induction names with
  | nil => simp [mapGet]
  | cons a names ih =>
    rw [List.map_cons, List.zip_cons_cons]
    by_cases h : a = g
    · simp [mapGet, h]
    · have h2 : ¬ g = a := fun e => h e.symm
      simp only [mapGet, h, if_false, ih, List.mem_cons, h2, false_or]

theorem zip_map_get (names s : List String) (hnd : names.Nodup)
    (hlen : names.length = s.length) :
    names.map (fun g => (mapGet (names.zip s) g).getD g) = s := by
  induction names generalizing s with
  | nil =>
    cases s with
    | nil => rfl
    | cons r s => simp at hlen
  | cons a names ih =>
    cases s with
    | nil => simp at hlen
    | cons r s =>
      rw [List.nodup_cons] at hnd
      have hlen2 : names.length = s.length := by simpa using hlen
      have hrest : names.map (fun g => (mapGet ((a :: names).zip (r :: s)) g).getD g)
          = names.map (fun g => (mapGet (names.zip s) g).getD g) := by
        apply List.map_congr_left
        intro g hg
        have hag : ¬ a = g := fun e => hnd.1 (e ▸ hg)
        show (mapGet ((a, r) :: names.zip s) g).getD g = (mapGet (names.zip s) g).getD g
        simp only [mapGet, hag, if_false]
      rw [List.map_cons, hrest, ih s hnd.2 hlen2]
      show (mapGet ((a, r) :: names.zip s) a).getD a :: s = r :: s
      simp only [mapGet, if_true, Option.getD_some]

theorem zip_isDerangement (names s : List String) (hnd : names.Nodup) (hp : s.Perm names)
    (hf : hasFixedPoint names s = false) : IsDerangementOf names (names.zip s) := by
  have hle : names.length ≤ s.length := perm_length_le names s hp
  have hk : mapKeys (names.zip s) = names := List.map_fst_zip _ _ hle
  have hget : ∀ g v, mapGet (names.zip s) g = some v ↔ (g, v) ∈ names.zip s :=
    mapGet_eq_some_iff _ (by rw [hk]; exact hnd)
  have hloop : pairLoop names s [] = .done (names.zip s) := by
    rw [pairLoop_eq names s [] hle, hf, pairUp_nodup_nil names s hnd]
    rfl
  refine ⟨?_, ?_, ?_⟩
  · intro g
    rw [mapGet_isSome_iff, hk]
  · intro g v hg
    refine ⟨?_, pairLoop_noSelf names s [] _ hloop (by simp [mapGet]) g v hg⟩
    exact hp.mem_iff.1 (List.of_mem_zip ((hget g v).1 hg)).2
  · intro g g' v hg hg'
    exact zip_snd_inj names s (hp.nodup_iff.2 hnd) g g' v ((hget g v).1 hg) ((hget g' v).1 hg')

theorem derangement_preimage (names : List String) (hnd : names.Nodup) (f : StrMap)
    (hder : IsDerangementOf names f) :
    (names.map fun g => (mapGet f g).getD g).Perm names ∧
    hasFixedPoint names (names.map fun g => (mapGet f g).getD g) = false ∧
    ∀ g, mapGet (names.zip (names.map fun g => (mapGet f g).getD g)) g = mapGet f g := by
  obtain ⟨hkeys, hvals, hinj⟩ := hder
  have hsome : ∀ g ∈ names, ∃ v, mapGet f g = some v := fun g hg =>
    Option.isSome_iff_exists.1 ((hkeys g).2 hg)
  refine ⟨?_, ?_, ?_⟩
  · apply List.Subperm.perm_of_length_le
    · apply List.subperm_of_subset
      · apply List.Nodup.map_on _ hnd
        intro x hx y hy hxy
        obtain ⟨v, hv⟩ := hsome x hx
        obtain ⟨w, hw⟩ := hsome y hy
        rw [hv, hw] at hxy
        simp only [Option.getD_some] at hxy
        exact hinj x y v hv (hxy ▸ hw)
      · intro v hv
        obtain ⟨g, hg, rfl⟩ := List.mem_map.1 hv
        obtain ⟨w, hw⟩ := hsome g hg
        rw [hw]
        exact (hvals g w hw).1
    · simp
  · by_contra hfix
    have hfix2 := (hasFixedPoint_iff _ _).1 (by simpa using hfix)
    obtain ⟨i, hi, he⟩ := hfix2
    rw [List.getElem?_map, List.getElem?_eq_getElem hi] at he
    simp only [Option.map_some', Option.some.injEq] at he
    obtain ⟨w, hw⟩ := hsome names[i] (List.getElem_mem _)
    rw [hw] at he
    exact (hvals _ w hw).2 he.symm
  · intro g
    rw [mapGet_zip_map]
    by_cases hg : g ∈ names
    · obtain ⟨w, hw⟩ := hsome g hg
      simp [hg, hw]
    · have : mapGet f g = none := by
        cases h : mapGet f g with
        | none => rfl
        | some v => exact absurd ((hkeys g).1 (by simp [h])) hg
      simp [hg, this]

theorem pairLoop_retry_of_fixed (names p : List String) (hp : p.Perm names)
    (hf : hasFixedPoint names p = true) : pairLoop names p [] = .retry := by
  rw [pairLoop_eq names p [] (perm_length_le names p hp), hf]
  rfl

theorem pairLoop_done_of_no_fixed (names p : List String) (hp : p.Perm names)
    (hf : hasFixedPoint names p = false) :
    pairLoop names p [] = .done (pairUp names p []) := by
  rw [pairLoop_eq names p [] (perm_length_le names p hp), hf]
  rfl

theorem makePairings_ok_iff_split (names : List String) (stack : Nat)
    (outcomes : List (List String)) (m : StrMap) (hlen : 2 ≤ names.length)
    (hv : ValidOutcomes names outcomes) :
    makePairings names stack outcomes = some (.ok m) ↔
      ∃ pre s post, outcomes = pre ++ s :: post ∧ pre.length ≤ stack ∧
        (∀ p ∈ pre, hasFixedPoint names p = true) ∧
        hasFixedPoint names s = false ∧ m = pairUp names s [] := by
  constructor
  · intro h
    rcases makePairings_split names stack outcomes _ hlen h with hso | hsplit
    · cases hso
    obtain ⟨pre, s, post, he, hle, hpre, hs⟩ := hsplit
    refine ⟨pre, s, post, he, hle, ?_, ?_⟩
    · intro p hp
      have hp2 : p ∈ outcomes := by rw [he]; simp [hp]
      have := hpre p hp
      rw [pairLoop_eq names p [] (perm_length_le names p (hv p hp2))] at this
      by_cases hf : hasFixedPoint names p = true
      · exact hf
      · simp [hf] at this
    · have hs2 : s ∈ outcomes := by rw [he]; simp
      rw [pairLoop_eq names s [] (perm_length_le names s (hv s hs2))] at hs
      rcases hs with ⟨m', hm', hr⟩ | ⟨hp, _⟩
      · by_cases hf : hasFixedPoint names s = true
        · simp [hf] at hm'
        · simp only [hf, Bool.false_eq_true, if_false, LoopResult.done.injEq] at hm'
          simp only [Result.ok.injEq] at hr
          exact ⟨by simpa using hf, by rw [hr, hm']⟩
      · by_cases hf : hasFixedPoint names s = true <;> simp [hf] at hp
  · rintro ⟨pre, s, post, he, hle, hpre, hs, hm⟩
    have hs2 : s ∈ outcomes := by rw [he]; simp
    have hpre2 : ∀ p ∈ pre, pairLoop names p [] = .retry := by
      intro p hp
      have hp2 : p ∈ outcomes := by rw [he]; simp [hp]
      exact pairLoop_retry_of_fixed names p (hv p hp2) (hpre p hp)
    obtain ⟨d, rfl⟩ := Nat.exists_eq_add_of_le hle
    rw [he, Nat.add_comm, makePairings_append_retry names d pre _ hlen hpre2, hm]
    exact makePairings_cons_done names s d post _ hlen
      (pairLoop_done_of_no_fixed names s (hv s hs2) hs)

theorem makePairings_ok_nodup (names : List String) (stack : Nat)
    (outcomes : List (List String)) (m : StrMap) (hlen : 2 ≤ names.length)
    (hnd : names.Nodup) (hv : ValidOutcomes names outcomes)
    (h : makePairings names stack outcomes = some (.ok m)) :
    ∃ s, s ∈ outcomes ∧ s.Perm names ∧ hasFixedPoint names s = false ∧ m = names.zip s := by
  obtain ⟨pre, s, post, he, _, _, hs, hm⟩ :=
    (makePairings_ok_iff_split names stack outcomes m hlen hv).1 h
  have hs2 : s ∈ outcomes := by rw [he]; simp
  exact ⟨s, hs2, hv s hs2, hs, by rw [hm, pairUp_nodup_nil names s hnd]⟩

theorem makePairings_no_panic (names : List String) (stack : Nat)
    (outcomes : List (List String)) (hlen : 2 ≤ names.length)
    (hv : ValidOutcomes names outcomes) :
    makePairings names stack outcomes ≠ some .panic := by
  intro h
  rcases makePairings_split names stack outcomes _ hlen h with hso | hsplit
  · cases hso
  obtain ⟨pre, s, post, he, _, _, hs⟩ := hsplit
  have hs2 : s ∈ outcomes := by rw [he]; simp
  rw [pairLoop_eq names s [] (perm_length_le names s (hv s hs2))] at hs
  rcases hs with ⟨m, _, hr⟩ | ⟨hp, _⟩
  · cases hr
  · by_cases hf : hasFixedPoint names s = true <;> simp [hf] at hp

theorem makePairings_no_error (names : List String) (stack : Nat)
    (outcomes : List (List String)) (hlen : 2 ≤ names.length) (msg : String) :
    makePairings names stack outcomes ≠ some (.error msg) := by
  intro h
  rcases makePairings_split names stack outcomes _ hlen h with hso | hsplit
  · cases hso
  obtain ⟨pre, s, post, _, _, _, hs⟩ := hsplit
  rcases hs with ⟨m, _, hr⟩ | ⟨_, hr⟩ <;> cases hr

theorem makePairings_cons_rejected (names p : List String) (stack : Nat)
    (rest : List (List String)) (hlen : 2 ≤ names.length) (hp : p.Perm names)
    (hf : hasFixedPoint names p = true) :
    makePairings names (stack + 1) (p :: rest) = makePairings names stack rest :=
  makePairings_cons_retry names p stack rest hlen (pairLoop_retry_of_fixed names p hp hf)

theorem makePairings_cons_rejected_zero (names p : List String)
    (rest : List (List String)) (hlen : 2 ≤ names.length) (hp : p.Perm names)
    (hf : hasFixedPoint names p = true) :
    makePairings names 0 (p :: rest) = some .stackOverflow :=
  makePairings_cons_retry_zero names p rest hlen (pairLoop_retry_of_fixed names p hp hf)

theorem makePairings_cons_accepted (names p : List String) (stack : Nat)
    (rest : List (List String)) (hlen : 2 ≤ names.length) (hp : p.Perm names)
    (hf : hasFixedPoint names p = false) :
    makePairings names stack (p :: rest) = some (.ok (pairUp names p [])) :=
  makePairings_cons_done names p stack rest _ hlen (pairLoop_done_of_no_fixed names p hp hf)

theorem retries_exact (names : List String) (hlen : 2 ≤ names.length) (stack : Nat)
    (outcomes : List (List String)) (hv : ValidOutcomes names outcomes)
    (hex : ∃ s ∈ outcomes, hasFixedPoint names s = false) :
    ((outcomes.takeWhile (hasFixedPoint names)).length ≤ stack →
      (∃ m, makePairings names stack outcomes = some (.ok m) ∧
        makePairings names stack
            (outcomes.take ((outcomes.takeWhile (hasFixedPoint names)).length + 1))
          = some (.ok m)) ∧
      ∀ j, j ≤ (outcomes.takeWhile (hasFixedPoint names)).length →
        makePairings names stack (outcomes.take j) = none) ∧
    (stack < (outcomes.takeWhile (hasFixedPoint names)).length →
      makePairings names stack outcomes = some .stackOverflow) := by
  induction outcomes generalizing stack with
  | nil => obtain ⟨s, hs, _⟩ := hex; cases hs
  | cons p outcomes ih =>
    have hp : p.Perm names := hv p (List.mem_cons_self _ _)
    have hv2 : ValidOutcomes names outcomes := fun q hq => hv q (List.mem_cons_of_mem _ hq)
    by_cases hf : hasFixedPoint names p = true
    · have hex2 : ∃ s ∈ outcomes, hasFixedPoint names s = false := by
        obtain ⟨s, hs, hsf⟩ := hex
        rcases List.mem_cons.1 hs with rfl | hs
        · rw [hf] at hsf; cases hsf
        · exact ⟨s, hs, hsf⟩
      rw [List.takeWhile_cons_of_pos hf, List.length_cons]
      cases stack with
      | zero =>
        refine ⟨fun h0 => absurd h0 (by omega), fun _ => ?_⟩
        exact makePairings_cons_rejected_zero names p _ hlen hp hf
      | succ stack =>
        obtain ⟨hok, hover⟩ := ih stack hv2 hex2
        refine ⟨fun hle => ?_, fun hlt => ?_⟩
        · obtain ⟨⟨m, hm1, hm2⟩, hnone⟩ := hok (by omega)
          refine ⟨⟨m, ?_, ?_⟩, ?_⟩
          · rw [makePairings_cons_rejected names p stack _ hlen hp hf]; exact hm1
          · rw [List.take_succ_cons, makePairings_cons_rejected names p stack _ hlen hp hf]
            exact hm2
          · intro j hj
            cases j with
            | zero => exact makePairings_nil names _ hlen
            | succ j =>
              rw [List.take_succ_cons, makePairings_cons_rejected names p stack _ hlen hp hf]
              exact hnone j (by omega)
        · rw [makePairings_cons_rejected names p stack _ hlen hp hf]
          exact hover (by omega)
    · have hf2 : hasFixedPoint names p = false := by simpa using hf
      rw [List.takeWhile_cons_of_neg hf]
      refine ⟨fun _ => ⟨⟨pairUp names p [], ?_, ?_⟩, ?_⟩, fun hlt => absurd hlt (by simp)⟩
      · exact makePairings_cons_accepted names p stack _ hlen hp hf2
      · exact makePairings_cons_accepted names p stack _ hlen hp hf2
      · intro j hj
        have : j = 0 := by simpa using hj
        subst this
        exact makePairings_nil names stack hlen

theorem makePairings_single_ok (names s : List String) (stack : Nat) (m : StrMap)
    (hlen : 2 ≤ names.length) (hnd : names.Nodup) (hp : s.Perm names) :
    makePairings names stack [s] = some (.ok m)
      ↔ hasFixedPoint names s = false ∧ m = names.zip s := by
  by_cases hf : hasFixedPoint names s = true
  · have hne : makePairings names stack [s] ≠ some (.ok m) := by
      cases stack with
      | zero =>
        rw [makePairings_cons_rejected_zero names s [] hlen hp hf]
        intro h; cases h
      | succ stack =>
        rw [makePairings_cons_rejected names s stack [] hlen hp hf,
          makePairings_nil names stack hlen]
        intro h; cases h
    simp [hf, hne]
  · have hf2 : hasFixedPoint names s = false := by simpa using hf
    rw [makePairings_cons_accepted names s stack [] hlen hp hf2,
      pairUp_nodup_nil names s hnd]
    simp only [hf2, Option.some.injEq, Result.ok.injEq, true_and]
    exact eq_comm

/-! ## The shuffle closure -/

theorem swap_perm (shuffled : List String) (i j : Nat) : (swap shuffled i j).Perm shuffled := by
  unfold swap
  cases hi : shuffled[i]? with
  | none => exact List.Perm.refl _
  | some x =>
    cases hj : shuffled[j]? with
    | none => exact List.Perm.refl _
    | some y =>
      obtain ⟨hi1, hi2⟩ := List.getElem?_eq_some_iff.1 hi
      obtain ⟨hj1, hj2⟩ := List.getElem?_eq_some_iff.1 hj
      show ((shuffled.set i y).set j x).Perm shuffled
      rw [List.perm_iff_count]
      intro a
      rw [List.count_set _ _ _ _ (by simpa using hj1), List.count_set _ _ _ _ hi1,
        List.getElem_set, hi2]
      have hx : 0 < shuffled.count x := List.count_pos_iff.2 (hi2 ▸ List.getElem_mem _)
      have hy : 0 < shuffled.count y := List.count_pos_iff.2 (hj2 ▸ List.getElem_mem _)
      by_cases hij : i = j
      · subst hij
        have hxy : x = y := hi2.symm.trans hj2
        subst hxy
        by_cases hxa : x = a
        · subst hxa; simp; omega
        · simp [hxa]
      · rw [hj2]
        by_cases hxa : x = a <;> by_cases hya : y = a
        · subst hxa; subst hya; simp [hij]; omega
        · subst hxa; simp [hij, hya]; omega
        · subst hya; simp [hij, hxa]
        · simp [hij, hxa, hya]

theorem shuffleWith_perm (names : List String) (calls : List (Nat × Nat)) :
    (shuffleWith names calls).Perm names := by
  unfold shuffleWith
  induction calls generalizing names with
  | nil => exact List.Perm.refl _
  | cons c calls ih =>
    rw [List.foldl_cons]
    exact (ih _).trans (swap_perm names c.1 c.2)

theorem shuffle_outcomes_valid (names : List String) (callss : List (List (Nat × Nat))) :
    ValidOutcomes names (callss.map (shuffleWith names)) := by
  intro s hs
  obtain ⟨calls, _, rfl⟩ := List.mem_map.1 hs
  exact shuffleWith_perm names calls

theorem swap_succ (a : String) (l : List String) (i j : Nat) :
    swap (a :: l) (i + 1) (j + 1) = a :: swap l i j := by
  unfold swap
  simp only [List.getElem?_cons_succ]
  cases l[i]? <;> cases l[j]? <;> simp

theorem shuffleWith_succ (a : String) (l : List String) (calls : List (Nat × Nat)) :
    shuffleWith (a :: l) (calls.map fun c => (c.1 + 1, c.2 + 1)) = a :: shuffleWith l calls := by
  unfold shuffleWith
  induction calls generalizing l with
  | nil => rfl
  | cons c calls ih =>
    rw [List.map_cons, List.foldl_cons, List.foldl_cons, swap_succ, ih]

theorem perm_reachable (names s : List String) (h : names.Perm s) :
    ∃ calls : List (Nat × Nat),
      (∀ c ∈ calls, c.1 < names.length ∧ c.2 < names.length) ∧ shuffleWith names calls = s := by
  induction h with
  | nil => exact ⟨[], by simp, rfl⟩
  | cons a _ ih =>
    obtain ⟨calls, hr, he⟩ := ih
    refine ⟨calls.map fun c => (c.1 + 1, c.2 + 1), ?_, by rw [shuffleWith_succ, he]⟩
    intro c hc
    obtain ⟨d, hd, rfl⟩ := List.mem_map.1 hc
    have := hr d hd
    simp only [List.length_cons]
    omega
  | swap a b l =>
    refine ⟨[(0, 1)], by simp, ?_⟩
    simp [shuffleWith, swap]
  | trans h1 _ ih1 ih2 =>
    obtain ⟨c1, hr1, he1⟩ := ih1
    obtain ⟨c2, hr2, he2⟩ := ih2
    refine ⟨c1 ++ c2, ?_, ?_⟩
    · intro c hc
      rcases List.mem_append.1 hc with hc | hc
      · exact hr1 c hc
      · rw [h1.length_eq]; exact hr2 c hc
    · unfold shuffleWith at he1 he2 ⊢
      rw [List.foldl_append, he1, he2]

/-! ## The name loader -/

theorem TrimSpace_data (s : String) :
    (TrimSpace s).data = (s.data.dropWhile isSpace).rdropWhile isSpace := rfl

theorem TrimSpace_eq_empty_iff (s : String) : TrimSpace s = "" ↔ isBlank s = true := by
  have h0 : TrimSpace s = "" ↔ (TrimSpace s).data = [] := by
    rw [String.ext_iff]
  rw [h0, TrimSpace_data, List.rdropWhile, List.reverse_eq_nil_iff, List.dropWhile_eq_nil_iff]
  unfold isBlank
  rw [List.all_eq_true]
  constructor
  · intro h
    have hnil : s.data.dropWhile isSpace = [] := by
      cases hd : s.data.dropWhile isSpace with
      | nil => rfl
      | cons c cs =>
        have h1 := List.head?_dropWhile_not isSpace s.data
        rw [hd] at h1
        simp only [List.head?_cons] at h1
        have h2 := h c (by rw [hd]; simp)
        rw [h1] at h2
        cases h2
    exact List.dropWhile_eq_nil_iff.1 hnil
  · intro h x hx
    rw [List.dropWhile_eq_nil_iff.2 h] at hx
    simp at hx

theorem TrimSpace_head (s : String) (c : Char) (h : (TrimSpace s).data.head? = some c) :
    isSpace c = false := by
  rw [TrimSpace_data] at h
  obtain ⟨t, ht⟩ := List.rdropWhile_prefix isSpace (l := s.data.dropWhile isSpace)
  have h1 := List.head?_dropWhile_not isSpace s.data
  rw [← ht] at h1
  cases hr : List.rdropWhile isSpace (s.data.dropWhile isSpace) with
  | nil => rw [hr] at h; cases h
  | cons x xs =>
    rw [hr] at h h1
    simp only [List.head?_cons, Option.some.injEq] at h
    simp only [List.cons_append, List.head?_cons] at h1
    rw [← h]; exact h1

theorem TrimSpace_last (s : String) (c : Char) (h : (TrimSpace s).data.getLast? = some c) :
    isSpace c = false := by
  rw [TrimSpace_data, List.rdropWhile, List.getLast?_reverse] at h
  have h1 := List.head?_dropWhile_not isSpace (s.data.dropWhile isSpace).reverse
  rw [h] at h1
  exact h1

theorem readLoop_eq (lines names : List String) :
    readLoop lines names = names ++ trimmedNames lines := by
  induction lines generalizing names with
  | nil => simp [readLoop, trimmedNames]
  | cons text lines ih =>
    by_cases h : TrimSpace text = "" <;> simp [readLoop, trimmedNames, h, ih]

theorem scanTokens_short (ls : List (List Char)) (readErr : Option String)
    (h : ∀ line ∈ ls, byteLen line < MaxScanTokenSize) :
    scanTokens ls readErr = ⟨ls.map fun line => ⟨dropCR line⟩, readErr⟩ := by
  induction ls with
  | nil => rfl
  | cons line ls ih =>
    have h1 : ¬ MaxScanTokenSize ≤ byteLen line := by
      have := h line (List.mem_cons_self _ _)
      omega
    rw [scanTokens, if_neg h1, ih (fun l hl => h l (List.mem_cons_of_mem _ hl))]
    rfl

theorem scanTokens_long (ls : List (List Char)) (readErr : Option String)
    (h : ∃ line ∈ ls, MaxScanTokenSize ≤ byteLen line) :
    (scanTokens ls readErr).err = some ErrTooLong := by
  induction ls with
  | nil => obtain ⟨line, hl, _⟩ := h; cases hl
  | cons line ls ih =>
    by_cases h1 : MaxScanTokenSize ≤ byteLen line
    · rw [scanTokens, if_pos h1]
    · rw [scanTokens, if_neg h1]
      apply ih
      obtain ⟨l, hl, hlong⟩ := h
      rcases List.mem_cons.1 hl with rfl | hl
      · exact absurd hlong h1
      · exact ⟨l, hl, hlong⟩

theorem rawLinesFrom_append (l rest line : List Char) (h : '\n' ∉ l) :
    rawLinesFrom (l ++ '\n' :: rest) line = (line.reverse ++ l) :: rawLinesFrom rest [] := by
  induction l generalizing line with
  | nil => simp [rawLinesFrom]
  | cons c l ih =>
    have hc : ¬ c = '\n' := fun e => h (e ▸ List.mem_cons_self _ _)
    have hl : '\n' ∉ l := fun e => h (List.mem_cons_of_mem _ e)
    rw [List.cons_append, rawLinesFrom, if_neg hc, ih _ hl]
    simp

theorem byteLen_replicate (n : Nat) (c : Char) :
    byteLen (List.replicate n c) = n * c.utf8Size := by
  unfold byteLen
  rw [List.map_replicate, List.sum_replicate, smul_eq_mul]

theorem rawLines_longLineSource :
    rawLines longLineSource = ["Alice".data, List.replicate 65536 'x', "Bob".data] := by
  unfold rawLines longLineSource
  rw [rawLinesFrom_append _ _ _ (by decide),
    rawLinesFrom_append _ _ _ (by
      intro h
      have := List.eq_of_mem_replicate h
      exact absurd this (by decide))]
  rfl

theorem readNamesFromFile_ok (text : String)
    (h : ∀ line ∈ rawLines text, byteLen line < MaxScanTokenSize) :
    readNamesFromFile (.ok ⟨text, none⟩) = .ok (trimmedNames (sourceLines text)) := by
  simp only [readNamesFromFile, NewScanner, scanTokens_short _ _ h, readLoop_eq, sourceLines,
    List.nil_append]

theorem readNamesFromFile_tooLong (text : String)
    (h : ∃ line ∈ rawLines text, MaxScanTokenSize ≤ byteLen line) :
    readNamesFromFile (.ok ⟨text, none⟩) = .error ErrTooLong := by
  simp only [readNamesFromFile, NewScanner, scanTokens_long _ _ h]

/-! ## Properties of the pairing generator -/

/-- C1. On a list of at least two names, whatever the shuffle outcomes and the stack, a
mapping that `makePairings` returns has no fixed point: no key is mapped to itself. -/
theorem makePairings_no_fixed_point (names : List String) (stack : Nat)
    (outcomes : List (List String)) (m : StrMap) (hlen : 2 ≤ names.length)
    (h : makePairings names stack outcomes = some (.ok m)) :
    ∀ g v, mapGet m g = some v → v ≠ g := by
  rcases makePairings_split names stack outcomes _ hlen h with hso | hsplit
  · cases hso
  obtain ⟨pre, s, post, _, _, _, hs⟩ := hsplit
  rcases hs with ⟨m', hm', hr⟩ | ⟨_, hr⟩
  · simp only [Result.ok.injEq] at hr
    rw [hr]
    exact pairLoop_noSelf names s [] m' hm' (by simp [mapGet])
  · cases hr

theorem makePairings_no_fixed_point_witness :
    makePairings ["Alice", "Bob", "Carol"] 8
        [["Alice", "Carol", "Bob"], ["Bob", "Carol", "Alice"]]
      = some (.ok [("Alice", "Bob"), ("Bob", "Carol"), ("Carol", "Alice")]) ∧
    ∀ g v, mapGet [("Alice", "Bob"), ("Bob", "Carol"), ("Carol", "Alice")] g = some v →
      v ≠ g :=
  ⟨by decide,
   makePairings_no_fixed_point ["Alice", "Bob", "Carol"] 8
     [["Alice", "Carol", "Bob"], ["Bob", "Carol", "Alice"]] _ (by decide) (by decide)⟩

/-- C2. On a list of at least two pairwise distinct names and valid shuffle outcomes, a
mapping that `makePairings` returns is a bijection on the names: its key set and its value
set are the set of names, every name occurs exactly once among the keys and exactly once
among the values, the entries are what a read finds, and no two keys share a value. -/
theorem makePairings_bijection (names : List String) (stack : Nat)
    (outcomes : List (List String)) (m : StrMap) (hlen : 2 ≤ names.length)
    (hnd : names.Nodup) (hv : ValidOutcomes names outcomes)
    (h : makePairings names stack outcomes = some (.ok m)) :
    (∀ p, p ∈ mapKeys m ↔ p ∈ names) ∧ (∀ p, p ∈ mapValues m ↔ p ∈ names) ∧
    (∀ p ∈ names, (mapKeys m).count p = 1 ∧ (mapValues m).count p = 1) ∧
    (∀ g v, mapGet m g = some v ↔ (g, v) ∈ m) ∧
    (∀ g, g ∈ names ↔ ∃ v, mapGet m g = some v) ∧
    (∀ v, v ∈ names ↔ ∃ g, mapGet m g = some v) ∧
    (∀ g g' v, mapGet m g = some v → mapGet m g' = some v → g = g') := by
  obtain ⟨s, _, hp, _, hm⟩ := makePairings_ok_nodup names stack outcomes m hlen hnd hv h
  have hle : names.length ≤ s.length := perm_length_le names s hp
  have hle2 : s.length ≤ names.length := le_of_eq hp.length_eq
  have hk : mapKeys m = names := by rw [hm]; exact List.map_fst_zip _ _ hle
  have hvs : mapValues m = s := by rw [hm]; exact List.map_snd_zip _ _ hle2
  have hsnd : s.Nodup := hp.nodup_iff.2 hnd
  have hget : ∀ g v, mapGet m g = some v ↔ (g, v) ∈ m :=
    mapGet_eq_some_iff m (by rw [hk]; exact hnd)
  refine ⟨?_, ?_, ?_, hget, ?_, ?_, ?_⟩
  · intro p; rw [hk]
  · intro p; rw [hvs]; exact hp.mem_iff
  · intro p hpn
    rw [hk, hvs]
    exact ⟨List.count_eq_one_of_mem hnd hpn, List.count_eq_one_of_mem hsnd (hp.mem_iff.2 hpn)⟩
  · intro g
    rw [← hk, ← mapGet_isSome_iff, Option.isSome_iff_exists]
  · intro v
    constructor
    · intro hvn
      have hv2 : v ∈ mapValues m := by rw [hvs]; exact hp.mem_iff.2 hvn
      obtain ⟨⟨g, v'⟩, hmem, rfl⟩ := List.mem_map.1 hv2
      exact ⟨g, (hget g v').2 hmem⟩
    · rintro ⟨g, hg⟩
      have : v ∈ mapValues m := List.mem_map.2 ⟨(g, v), (hget g v).1 hg, rfl⟩
      rw [hvs] at this
      exact hp.mem_iff.1 this
  · intro g g' v hg hg'
    have h1 := (hget g v).1 hg
    have h2 := (hget g' v).1 hg'
    rw [hm] at h1 h2
    exact zip_snd_inj names s hsnd g g' v h1 h2

theorem makePairings_bijection_witness :
    (∀ p, p ∈ mapKeys [("Alice", "Bob"), ("Bob", "Carol"), ("Carol", "Alice")]
        ↔ p ∈ ["Alice", "Bob", "Carol"]) ∧
    (∀ p, p ∈ mapValues [("Alice", "Bob"), ("Bob", "Carol"), ("Carol", "Alice")]
        ↔ p ∈ ["Alice", "Bob", "Carol"]) :=
  have h := makePairings_bijection ["Alice", "Bob", "Carol"] 8
    [["Alice", "Carol", "Bob"], ["Bob", "Carol", "Alice"]]
    [("Alice", "Bob"), ("Bob", "Carol"), ("Carol", "Alice")]
    (by decide) (by decide) (by decide) (by decide)
  ⟨h.1, h.2.1⟩

/-- C3. On a list of fewer than two names `makePairings` returns the error "not enough
participants" and no mapping, whatever the shuffle outcomes and the stack; on a list of at
least two names it never returns an error. -/
theorem makePairings_error (names : List String) (stack : Nat)
    (outcomes : List (List String)) :
    (names.length < 2 → makePairings names stack outcomes = some (.error notEnough)) ∧
    (2 ≤ names.length → ∀ msg, makePairings names stack outcomes ≠ some (.error msg)) :=
  ⟨makePairings_short names stack outcomes,
   fun hlen msg => makePairings_no_error names stack outcomes hlen msg⟩

theorem makePairings_error_witness :
    makePairings ["Alice"] 8 [["Alice"]]
      = some (.error "not enough participants for Secret Santa") ∧
    makePairings [] 0 [] = some (.error "not enough participants for Secret Santa") ∧
    ∀ msg, makePairings ["Alice", "Bob"] 8 [["Bob", "Alice"]] ≠ some (.error msg) :=
  ⟨(makePairings_error ["Alice"] 8 [["Alice"]]).1 (by decide),
   (makePairings_error [] 0 []).1 (by decide),
   (makePairings_error ["Alice", "Bob"] 8 [["Bob", "Alice"]]).2 (by decide)⟩

/-- C4. On a list `[a, b]` of two distinct names and valid shuffle outcomes, whenever
`makePairings` returns, it returns exactly the mapping `{a: b, b: a}`: a run yields that
mapping or, when the retries exhaust the stack, ends without returning; it yields no other
mapping, no error and no index panic. -/
theorem makePairings_two (a b : String) (hab : a ≠ b) (stack : Nat)
    (outcomes : List (List String)) (hv : ValidOutcomes [a, b] outcomes) (r : Result)
    (h : makePairings [a, b] stack outcomes = some r) :
    r = .ok [(a, b), (b, a)] ∨ r = .stackOverflow := by
  have hlen : 2 ≤ [a, b].length := by simp
  have hnd : [a, b].Nodup := by simp [hab]
  cases r with
  | error msg => exact absurd h (makePairings_no_error _ _ _ hlen msg)
  | panic => exact absurd h (makePairings_no_panic _ _ _ hlen hv)
  | stackOverflow => exact Or.inr rfl
  | ok m =>
    obtain ⟨s, _, hp, hf, hm⟩ := makePairings_ok_nodup _ stack outcomes m hlen hnd hv h
    rcases perm_pair a b s hp with rfl | rfl
    · simp [hasFixedPoint_cons] at hf
    · left; rw [hm]; rfl

theorem makePairings_two_witness :
    makePairings ["Alice", "Bob"] 8 [["Alice", "Bob"], ["Alice", "Bob"], ["Bob", "Alice"]]
      = some (.ok [("Alice", "Bob"), ("Bob", "Alice")]) ∧
    (Result.ok [("Alice", "Bob"), ("Bob", "Alice")]
        = .ok [("Alice", "Bob"), ("Bob", "Alice")] ∨
      Result.ok [("Alice", "Bob"), ("Bob", "Alice")] = .stackOverflow) :=
  ⟨by decide,
   makePairings_two "Alice" "Bob" (by decide) 8
     [["Alice", "Bob"], ["Alice", "Bob"], ["Bob", "Alice"]] (by decide)
     (.ok [("Alice", "Bob"), ("Bob", "Alice")]) (by decide)⟩

/-- C9. The retry reshuffles the whole list.  On a list of at least two names and valid
shuffle outcomes, `makePairings` returns the mapping `m` exactly when the outcomes split
into rejected ones (each with a fixed position, and no more of them than the stack holds
activations), a first outcome `s` without fixed position, and a rest, and `m` pairs position
`i` of `names` with position `i` of `s`, built from the empty map: nothing written for a
rejected outcome is in it. -/
theorem makePairings_first_accepted (names : List String) (stack : Nat)
    (outcomes : List (List String)) (m : StrMap) (hlen : 2 ≤ names.length)
    (hv : ValidOutcomes names outcomes) :
    makePairings names stack outcomes = some (.ok m) ↔
      ∃ pre s post, outcomes = pre ++ s :: post ∧ pre.length ≤ stack ∧
        (∀ p ∈ pre, hasFixedPoint names p = true) ∧
        hasFixedPoint names s = false ∧ m = pairUp names s [] :=
  makePairings_ok_iff_split names stack outcomes m hlen hv

theorem makePairings_first_accepted_witness :
    makePairings ["Alice", "Bob", "Carol"] 8
        [["Carol", "Bob", "Alice"], ["Bob", "Carol", "Alice"], ["Carol", "Alice", "Bob"]]
      = some (.ok [("Alice", "Bob"), ("Bob", "Carol"), ("Carol", "Alice")]) :=
  (makePairings_first_accepted ["Alice", "Bob", "Carol"] 8
    [["Carol", "Bob", "Alice"], ["Bob", "Carol", "Alice"], ["Carol", "Alice", "Bob"]]
    [("Alice", "Bob"), ("Bob", "Carol"), ("Carol", "Alice")] (by decide) (by decide)).2
    ⟨[["Carol", "Bob", "Alice"]], ["Bob", "Carol", "Alice"], [["Carol", "Alice", "Bob"]],
      by decide, by decide, by decide, by decide, by decide⟩

/-- C8, as the code has it.  For a list of at least two pairwise distinct names a
rearrangement without fixed position exists.  On valid shuffle outcomes that contain one,
with `k` the number of leading outcomes that have a fixed position: when the stack holds
`k` further activations, `makePairings` returns a mapping after exactly `k` retries (the
first `k + 1` outcomes make it return, and no `j ≤ k` of them do); when it does not, the
run ends in a stack overflow and returns nothing. -/
theorem makePairings_succeeds (names : List String) (hlen : 2 ≤ names.length)
    (hnd : names.Nodup) :
    (∃ s, s.Perm names ∧ hasFixedPoint names s = false) ∧
    ∀ (stack : Nat) (outcomes : List (List String)), ValidOutcomes names outcomes →
      (∃ s ∈ outcomes, hasFixedPoint names s = false) →
      ((outcomes.takeWhile (hasFixedPoint names)).length ≤ stack →
        (∃ m, makePairings names stack outcomes = some (.ok m) ∧
          makePairings names stack
              (outcomes.take ((outcomes.takeWhile (hasFixedPoint names)).length + 1))
            = some (.ok m)) ∧
        ∀ j, j ≤ (outcomes.takeWhile (hasFixedPoint names)).length →
          makePairings names stack (outcomes.take j) = none) ∧
      (stack < (outcomes.takeWhile (hasFixedPoint names)).length →
        makePairings names stack outcomes = some .stackOverflow) :=
  ⟨exists_no_fixed names hlen hnd,
   fun stack outcomes hv hex => retries_exact names hlen stack outcomes hv hex⟩

theorem makePairings_succeeds_witness :
    (∃ m, makePairings ["Alice", "Bob", "Carol"] 2
        [["Alice", "Carol", "Bob"], ["Carol", "Bob", "Alice"], ["Bob", "Carol", "Alice"],
          ["Alice", "Bob", "Carol"]] = some (.ok m) ∧
      makePairings ["Alice", "Bob", "Carol"] 2
        (List.take
          ((List.takeWhile (hasFixedPoint ["Alice", "Bob", "Carol"])
            [["Alice", "Carol", "Bob"], ["Carol", "Bob", "Alice"], ["Bob", "Carol", "Alice"],
              ["Alice", "Bob", "Carol"]]).length + 1)
          [["Alice", "Carol", "Bob"], ["Carol", "Bob", "Alice"], ["Bob", "Carol", "Alice"],
            ["Alice", "Bob", "Carol"]]) = some (.ok m)) ∧
    makePairings ["Alice", "Bob", "Carol"] 1
        [["Alice", "Carol", "Bob"], ["Carol", "Bob", "Alice"], ["Bob", "Carol", "Alice"],
          ["Alice", "Bob", "Carol"]] = some .stackOverflow :=
  ⟨((((makePairings_succeeds ["Alice", "Bob", "Carol"] (by decide) (by decide)).2 2
      [["Alice", "Carol", "Bob"], ["Carol", "Bob", "Alice"], ["Bob", "Carol", "Alice"],
        ["Alice", "Bob", "Carol"]] (by decide)
      ⟨["Bob", "Carol", "Alice"], by decide, by decide⟩).1) (by decide)).1,
   (((makePairings_succeeds ["Alice", "Bob", "Carol"] (by decide) (by decide)).2 1
      [["Alice", "Carol", "Bob"], ["Carol", "Bob", "Alice"], ["Bob", "Carol", "Alice"],
        ["Alice", "Bob", "Carol"]] (by decide)
      ⟨["Bob", "Carol", "Alice"], by decide, by decide⟩).2) (by decide)⟩

/-- C8, counterexample.  The list of Alice and Bob, valid shuffle outcomes that contain the
rearrangement without fixed position, and yet no mapping: after 3500000 rejected outcomes
a stack that holds 3000000 further activations has overflowed.  The same happens for every
stack, with one rejected outcome more than it holds. -/
theorem makePairings_stack_overflow :
    ValidOutcomes ["Alice", "Bob"]
      (List.replicate 3500000 ["Alice", "Bob"] ++ [["Bob", "Alice"]]) ∧
    (∃ s ∈ List.replicate 3500000 ["Alice", "Bob"] ++ [["Bob", "Alice"]],
      hasFixedPoint ["Alice", "Bob"] s = false) ∧
    makePairings ["Alice", "Bob"] 3000000
      (List.replicate 3500000 ["Alice", "Bob"] ++ [["Bob", "Alice"]])
        = some .stackOverflow ∧
    (¬ ∃ m, makePairings ["Alice", "Bob"] 3000000
      (List.replicate 3500000 ["Alice", "Bob"] ++ [["Bob", "Alice"]]) = some (.ok m)) ∧
    ∀ stack, makePairings ["Alice", "Bob"] stack
      (List.replicate (stack + 1) ["Alice", "Bob"] ++ [["Bob", "Alice"]])
        = some .stackOverflow := by
  have hlen : 2 ≤ ["Alice", "Bob"].length := by decide
  have hrej : ∀ n, ∀ p ∈ List.replicate n ["Alice", "Bob"],
      pairLoop ["Alice", "Bob"] p [] = .retry := by
    intro n p hp
    rw [List.eq_of_mem_replicate hp]
    decide
  have hover : ∀ stack n, stack < n → makePairings ["Alice", "Bob"] stack
      (List.replicate n ["Alice", "Bob"] ++ [["Bob", "Alice"]]) = some .stackOverflow := by
    intro stack n hlt
    exact makePairings_overflow _ stack _ _ hlen (hrej n) (by rw [List.length_replicate]; exact hlt)
  refine ⟨?_, ⟨["Bob", "Alice"], List.mem_append_right _ (List.mem_singleton_self _),
    by decide⟩, hover _ _ (by norm_num), ?_,
    fun stack => hover stack (stack + 1) (Nat.lt_succ_self _)⟩
  · intro s hs
    rcases List.mem_append.1 hs with hs | hs
    · rw [List.eq_of_mem_replicate hs]
    · rw [List.mem_singleton.1 hs]
      decide
  · rintro ⟨m, hm⟩
    rw [hover _ _ (by norm_num)] at hm
    cases hm

/-- C10. Duplicate names keep the generator from returning.  When one name fills more
than half of the positions of a list of at least two names, every rearrangement of the
list has a position `i` with `names[i] == shuffled[i]`, so on valid shuffle outcomes,
however many, every attempt is rejected and `makePairings` returns neither a mapping nor
an error: the run goes on as long as outcomes are supplied and the stack holds them, and
ends in a stack overflow when it does not. -/
theorem makePairings_majority_never_returns (names : List String) (a : String)
    (hlen : 2 ≤ names.length) (hmaj : names.length < 2 * names.count a) :
    (∀ s : List String, s.Perm names → ∃ i, i < names.length ∧ names[i]? = s[i]?) ∧
    (∀ (s : List String) (stack : Nat) (rest : List (List String)), s.Perm names →
      makePairings names (stack + 1) (s :: rest) = makePairings names stack rest) ∧
    (∀ (stack : Nat) (outcomes : List (List String)), ValidOutcomes names outcomes →
      makePairings names stack outcomes
        = if outcomes.length ≤ stack then none else some .stackOverflow) ∧
    ∀ (stack : Nat) (outcomes : List (List String)), ValidOutcomes names outcomes →
      (∀ m, makePairings names stack outcomes ≠ some (.ok m)) ∧
      (∀ msg, makePairings names stack outcomes ≠ some (.error msg)) ∧
      makePairings names stack outcomes ≠ some .panic := by
  have hall : ∀ (stack : Nat) (outcomes : List (List String)), ValidOutcomes names outcomes →
      makePairings names stack outcomes
        = if outcomes.length ≤ stack then none else some .stackOverflow := by
    intro stack outcomes hv
    apply makePairings_all_retry names stack outcomes hlen
    intro p hp
    exact pairLoop_retry_of_fixed names p (hv p hp)
      (majority_hasFixedPoint names a hmaj p (hv p hp))
  refine ⟨?_, ?_, hall, ?_⟩
  · intro s hp
    exact (hasFixedPoint_iff names s).1 (majority_hasFixedPoint names a hmaj s hp)
  · intro s stack rest hp
    exact makePairings_cons_rejected names s stack rest hlen hp
      (majority_hasFixedPoint names a hmaj s hp)
  · intro stack outcomes hv
    rw [hall stack outcomes hv]
    by_cases hle : outcomes.length ≤ stack
    · simp [hle]
    · simp [hle]

theorem makePairings_majority_never_returns_witness :
    makePairings ["A", "A", "B"] 8 [["A", "B", "A"], ["B", "A", "A"], ["A", "A", "B"]]
      = (if [["A", "B", "A"], ["B", "A", "A"], ["A", "A", "B"]].length ≤ 8 then none
          else some .stackOverflow) ∧
    makePairings ["A", "A"] 0 [["A", "A"]]
      = (if [["A", "A"]].length ≤ 0 then none else some .stackOverflow) :=
  ⟨(makePairings_majority_never_returns ["A", "A", "B"] "A" (by decide) (by decide)).2.2.1 8
      [["A", "B", "A"], ["B", "A", "A"], ["A", "A", "B"]] (by decide),
   (makePairings_majority_never_returns ["A", "A"] "A" (by decide) (by decide)).2.2.1 0
      [["A", "A"]] (by decide)⟩

/-- C7. The accepted outcomes are the derangements, one for one.  For a list of at least
two pairwise distinct names: an attempt of `makePairings` on a rearrangement of the list
returns exactly when no position `i` has `names[i] == shuffled[i]`, whatever the stack;
the mapping returned is a fixed-point-free bijection of the name set; every
fixed-point-free bijection of the name set is the mapping of exactly one of the
rearrangements, of which there are `n!`, all different; and two rearrangements that give
the same mapping are equal. -/
theorem makePairings_uniform (names : List String) (stack : Nat)
    (hlen : 2 ≤ names.length) (hnd : names.Nodup) :
    (∀ s : List String, s.Perm names →
      ((∃ m, makePairings names stack [s] = some (.ok m)) ↔
        ∀ i, i < names.length → names[i]? ≠ s[i]?)) ∧
    (∀ (s : List String) (m : StrMap), s.Perm names →
      makePairings names stack [s] = some (.ok m) → IsDerangementOf names m) ∧
    (∀ f : StrMap, IsDerangementOf names f →
      ∃! s, s ∈ names.permutations ∧
        ∃ m, makePairings names stack [s] = some (.ok m) ∧ ∀ g, mapGet m g = mapGet f g) ∧
    (∀ (s s' : List String) (m : StrMap), s.Perm names → s'.Perm names →
      makePairings names stack [s] = some (.ok m) → makePairings names stack [s'] = some (.ok m) →
      s = s') ∧
    (∀ (s : List String) (m : StrMap), s.Perm names →
      makePairings names stack [s] = some (.ok m) →
      (names.permutations.filter fun t => decide (makePairings names stack [t] = some (.ok m))).length
        = 1) ∧
    names.permutations.Nodup ∧ names.permutations.length = names.length.factorial ∧
    ∀ s, s ∈ names.permutations ↔ s.Perm names := by
  have hinj : ∀ (s s' : List String) (m : StrMap), s.Perm names → s'.Perm names →
      makePairings names stack [s] = some (.ok m) → makePairings names stack [s'] = some (.ok m) →
      s = s' := by
    intro s s' m hp hp' hm hm'
    obtain ⟨_, h1⟩ := (makePairings_single_ok names s stack m hlen hnd hp).1 hm
    obtain ⟨_, h2⟩ := (makePairings_single_ok names s' stack m hlen hnd hp').1 hm'
    have h3 : (names.zip s).map Prod.snd = (names.zip s').map Prod.snd := by rw [← h1, ← h2]
    rwa [List.map_snd_zip _ _ (le_of_eq hp.length_eq),
      List.map_snd_zip _ _ (le_of_eq hp'.length_eq)] at h3
  refine ⟨?_, ?_, ?_, hinj, ?_, List.nodup_permutations names hnd,
    List.length_permutations names, fun s => List.mem_permutations⟩
  · intro s hp
    constructor
    · rintro ⟨m, hm⟩ i hi he
      have hf := ((makePairings_single_ok names s stack m hlen hnd hp).1 hm).1
      have ht := (hasFixedPoint_iff names s).2 ⟨i, hi, he⟩
      rw [hf] at ht
      cases ht
    · intro hall
      refine ⟨names.zip s, (makePairings_single_ok names s stack _ hlen hnd hp).2 ⟨?_, rfl⟩⟩
      by_contra hf
      obtain ⟨i, hi, he⟩ := (hasFixedPoint_iff names s).1 (by simpa using hf)
      exact hall i hi he
  · intro s m hp hm
    obtain ⟨hf, rfl⟩ := (makePairings_single_ok names s stack m hlen hnd hp).1 hm
    exact zip_isDerangement names s hnd hp hf
  · intro f hder
    obtain ⟨hperm, hfix, hget⟩ := derangement_preimage names hnd f hder
    refine ⟨names.map fun g => (mapGet f g).getD g, ⟨List.mem_permutations.2 hperm, _,
      (makePairings_single_ok names _ stack _ hlen hnd hperm).2 ⟨hfix, rfl⟩, hget⟩, ?_⟩
    rintro s' ⟨hs', m', hm', hget'⟩
    have hp' : s'.Perm names := List.mem_permutations.1 hs'
    obtain ⟨_, rfl⟩ := (makePairings_single_ok names s' stack m' hlen hnd hp').1 hm'
    rw [← zip_map_get names s' hnd hp'.length_eq.symm]
    apply List.map_congr_left
    intro g _
    rw [hget' g]
  · intro s m hp hm
    have hfilter : (names.permutations.filter
        fun t => decide (makePairings names stack [t] = some (.ok m)))
        = names.permutations.filter (fun t => decide (t = s)) := by
      apply List.filter_congr
      intro t ht
      have hpt : t.Perm names := List.mem_permutations.1 ht
      by_cases hts : t = s
      · simp [hts, hm]
      · have : ¬ makePairings names stack [t] = some (.ok m) := fun h => hts (hinj t s m hpt hp h hm)
        simp [hts, this]
    rw [hfilter, List.filter_eq, List.length_replicate]
    exact List.count_eq_one_of_mem (List.nodup_permutations names hnd)
      (List.mem_permutations.2 hp)

theorem makePairings_uniform_witness :
    ((∃ m, makePairings ["Alice", "Bob", "Carol"] 8 [["Bob", "Carol", "Alice"]] = some (.ok m)) ↔
      ∀ i, i < ["Alice", "Bob", "Carol"].length →
        ["Alice", "Bob", "Carol"][i]? ≠ ["Bob", "Carol", "Alice"][i]?) ∧
    ["Alice", "Bob", "Carol"].permutations.length = 6 :=
  ⟨(makePairings_uniform ["Alice", "Bob", "Carol"] 8 (by decide) (by decide)).1
      ["Bob", "Carol", "Alice"] (by decide),
   (makePairings_uniform ["Alice", "Bob", "Carol"] 8 (by decide) (by decide)).2.2.2.2.2.2.1⟩

/-! ## Properties of the name loader and of the lookup -/

/-- C5, as the code has it.  On a readable source each of whose raw lines is shorter than
`MaxScanTokenSize` (65536) bytes, `readNamesFromFile` returns the trimmed lines, without
those that are empty after trimming, in their order; there are as many names as non-blank
lines, and every name is non-empty and neither starts nor ends with white space.  On a
readable source with a longer line it returns the scanner's error and no names.  The
source "Alice\n\nBob\n  \nCarol\n" yields Alice, Bob, Carol. -/
theorem readNamesFromFile_names :
    (∀ text : String, (∀ line ∈ rawLines text, byteLen line < MaxScanTokenSize) →
      readNamesFromFile (.ok ⟨text, none⟩) = .ok (trimmedNames (sourceLines text)) ∧
      (trimmedNames (sourceLines text)).length
        = (sourceLines text).countP (fun line => !isBlank line) ∧
      ∀ name ∈ trimmedNames (sourceLines text),
        name ≠ "" ∧ (∃ line ∈ sourceLines text, name = TrimSpace line) ∧
        (∀ c, name.data.head? = some c → isSpace c = false) ∧
        (∀ c, name.data.getLast? = some c → isSpace c = false)) ∧
    (∀ text : String, (∃ line ∈ rawLines text, MaxScanTokenSize ≤ byteLen line) →
      readNamesFromFile (.ok ⟨text, none⟩) = .error ErrTooLong) ∧
    sourceLines "Alice\n\nBob\n  \nCarol\n" = ["Alice", "", "Bob", "  ", "Carol"] ∧
    readNamesFromFile (.ok ⟨"Alice\n\nBob\n  \nCarol\n", none⟩)
      = .ok ["Alice", "Bob", "Carol"] := by
  refine ⟨fun text hshort => ⟨readNamesFromFile_ok text hshort, ?_, ?_⟩,
    readNamesFromFile_tooLong, by decide, by rfl⟩
  · unfold trimmedNames
    rw [← List.countP_eq_length_filter, List.countP_map]
    apply List.countP_congr
    intro line _
    have := TrimSpace_eq_empty_iff line
    by_cases hb : isBlank line = true
    · simp [hb, this.2 hb]
    · have hne : ¬ TrimSpace line = "" := fun e => hb (this.1 e)
      simp [hb, hne]
  · intro name hname
    unfold trimmedNames at hname
    rw [List.mem_filter, List.mem_map] at hname
    obtain ⟨⟨line, hline, rfl⟩, hne⟩ := hname
    exact ⟨by simpa using hne, ⟨line, hline, rfl⟩, TrimSpace_head line, TrimSpace_last line⟩

theorem readNamesFromFile_names_witness :
    readNamesFromFile (.ok ⟨"  Alice \n\nBob\t\r\n \r", none⟩)
      = .ok (trimmedNames (sourceLines "  Alice \n\nBob\t\r\n \r")) ∧
    trimmedNames (sourceLines "  Alice \n\nBob\t\r\n \r") = ["Alice", "Bob"] :=
  ⟨(readNamesFromFile_names.1 "  Alice \n\nBob\t\r\n \r" (by decide)).1, by decide⟩

/-- C5, counterexample.  The source `longLineSource` is readable and its lines are Alice, a
line of 65536 letters and Bob, yet `readNamesFromFile` returns the error "token too long"
of the scanner, and not the three names. -/
theorem readNamesFromFile_long_line :
    rawLines longLineSource = ["Alice".data, List.replicate 65536 'x', "Bob".data] ∧
    readNamesFromFile (.ok ⟨longLineSource, none⟩) = .error "bufio.Scanner: token too long" ∧
    readNamesFromFile (.ok ⟨longLineSource, none⟩)
      ≠ .ok (trimmedNames (sourceLines longLineSource)) := by
  have herr : readNamesFromFile (.ok ⟨longLineSource, none⟩) = .error ErrTooLong := by
    apply readNamesFromFile_tooLong
    rw [rawLines_longLineSource]
    refine ⟨List.replicate 65536 'x', List.mem_cons_of_mem _ (List.mem_cons_self _ _), ?_⟩
    rw [byteLen_replicate]
    decide
  refine ⟨rawLines_longLineSource, herr, ?_⟩
  rw [herr]
  intro h
  cases h

/-- C6. For a non-empty query name the handler answers with the giftee `mapping[name]`
when the name is a key of the mapping, with the not-found answer (status 404) when it is
not, and the mapping is the same afterwards. -/
theorem queryHandler_lookup (santa : SecretSanta) (name : String) (hname : name ≠ "") :
    (∀ giftee, mapGet santa.Pairings name = some giftee →
      (queryHandler santa name).1 = .json [("giver", name), ("giftee", giftee)]) ∧
    (mapGet santa.Pairings name = none →
      (queryHandler santa name).1 = .httpError "Name not found in Secret Santa list" 404) ∧
    (queryHandler santa name).2 = santa := by
  refine ⟨?_, ?_, ?_⟩
  · intro giftee hg
    simp only [queryHandler, hname, if_false, hg]
    rfl
  · intro hg
    simp only [queryHandler, hname, if_false, hg]
  · unfold queryHandler
    rw [if_neg hname]
    cases mapGet santa.Pairings name <;> rfl

theorem queryHandler_lookup_witness :
    (queryHandler ⟨[("Alice", "Bob"), ("Bob", "Carol"), ("Carol", "Alice")]⟩ "Bob").1
      = .json [("giver", "Bob"), ("giftee", "Carol")] ∧
    (queryHandler ⟨[("Alice", "Bob"), ("Bob", "Carol"), ("Carol", "Alice")]⟩ "Dave").1
      = .httpError "Name not found in Secret Santa list" 404 ∧
    (queryHandler ⟨[("Alice", "Bob"), ("Bob", "Carol"), ("Carol", "Alice")]⟩ "Dave").2
      = ⟨[("Alice", "Bob"), ("Bob", "Carol"), ("Carol", "Alice")]⟩ :=
  ⟨(queryHandler_lookup ⟨[("Alice", "Bob"), ("Bob", "Carol"), ("Carol", "Alice")]⟩ "Bob"
      (by decide)).1 "Carol" (by decide),
   (queryHandler_lookup ⟨[("Alice", "Bob"), ("Bob", "Carol"), ("Carol", "Alice")]⟩ "Dave"
      (by decide)).2.1 (by decide),
   (queryHandler_lookup ⟨[("Alice", "Bob"), ("Bob", "Carol"), ("Carol", "Alice")]⟩ "Dave"
      (by decide)).2.2⟩


end Santa
